import Mathlib

/-!
Verification of the JSON comparator core (src/src/JSONComparator.tsx):
the structural differ `compareObjects`, the string-diff highlighter
`getStringDiffSpans`, and the validation/compare driver
`validateJson` / `handleCompare`.

Decoded JSON values are embedded as the inductive `JsonValue`; JavaScript
objects become insertion-ordered association lists and arrays become ordered
element lists whose enumerable keys are the decimal index strings, exactly as
`Object.keys` exposes them.  JavaScript numbers are embedded as `Int`: every
numeric literal appearing in the claims is integral, and the differ only ever
tests numbers for strict equality.
-/

/-- A decoded JSON value: null, boolean, number, string, array, or object
(insertion-ordered string-keyed fields).  Mirrors the `JsonValue` tree the
component consumes from `JSON.parse`. -/
inductive JsonValue where
  | null : JsonValue
  | bool (b : Bool) : JsonValue
  | num (n : Int) : JsonValue
  | str (s : String) : JsonValue
  | arr (elems : List JsonValue) : JsonValue
  | obj (fieldList : List (String × JsonValue)) : JsonValue

/-- `typeof v === "object" && v !== null`: the values the differ walks into
(arrays and objects); `null` is explicitly excluded, as in the source's
null checks. -/
def isComposite : JsonValue → Bool
  | .arr _ => true
  | .obj _ => true
  | _ => false

/-- `v === null` (the check in `handleCompare`); on decoded JSON values this
is exactly the null tag. -/
def isNull : JsonValue → Bool
  | .null => true
  | _ => false

/-- JavaScript strict equality `===` restricted to the positions the differ
evaluates it at: at least one operand is a primitive (the code recurses
instead of comparing when both sides are non-null objects).  Primitives
compare by tag and value; an array or object is never `===` to a primitive,
and two decoded composites are distinct references, hence `false`. -/
def jsEq : JsonValue → JsonValue → Bool
  | .null, .null => true
  | .bool a, .bool b => a == b
  | .num a, .num b => a == b
  | .str a, .str b => a == b
  | _, _ => false

/-- The decimal digit character for `d < 10` (code point `48 + d`). -/
def digitChar (d : Nat) : Char := Char.ofNat (48 + d)

/-- Decimal digit list of a natural number, most significant digit first:
the character content of JavaScript's number-to-string conversion for the
array indices used as object keys. -/
def natKeyAux (n : Nat) : List Char :=
  if n < 10 then [digitChar n]
  else natKeyAux (n / 10) ++ [digitChar (n % 10)]
  termination_by n
  decreasing_by exact Nat.div_lt_self (by omega) (by omega)

/-- The decimal string for a natural number: the object key JavaScript uses
for array index `n`. -/
def natKey (n : Nat) : String := String.mk (natKeyAux n)

/-- The index-keyed field list of an array's elements starting at index `i`:
`Object.keys` of a dense array enumerates the decimal index strings in
ascending order. -/
def enumFields (i : Nat) : List JsonValue → List (String × JsonValue)
  | [] => []
  | v :: vs => (natKey i, v) :: enumFields (i + 1) vs

/-- The own enumerable (key, value) pairs of a composite value, in
enumeration order: an object's fields in insertion order, an array's
elements under their decimal index keys.  (JavaScript additionally floats
integer-like object keys to the front in ascending order; every property
proved in this development is invariant under the enumeration order of the
key set, and array index keys are ascending either way, so insertion order
is used for object keys.) -/
def fields : JsonValue → List (String × JsonValue)
  | .obj fs => fs
  | .arr l => enumFields 0 l
  | _ => []

/-- The keys of a field list. -/
def fieldKeys (fs : List (String × JsonValue)) : List String := fs.map Prod.fst

/-- `Object.keys(v)` for a composite value. -/
def keys (v : JsonValue) : List String := fieldKeys (fields v)

/-- First binding of a key in a field list (decoded JSON objects never carry
duplicate keys, so this is the binding). -/
def lookupFirst : List (String × JsonValue) → String → Option JsonValue
  | [], _ => none
  | p :: ps, k => if p.1 = k then some p.2 else lookupFirst ps k

/-- Property access `v[k]` together with the `k in v` test: `some` exactly
when the key is present. -/
def getv (v : JsonValue) (k : String) : Option JsonValue := lookupFirst (fields v) k

/-- Iteration of `new Set(l)` given the keys already seen: keeps the first
occurrence of each element, in order. -/
def dedupFirstAux : List String → List String → List String
  | [], _ => []
  | k :: ks, seen =>
    if seen.contains k then dedupFirstAux ks seen
    else k :: dedupFirstAux ks (k :: seen)

/-- `new Set([...keys1, ...keys2])` iterated in insertion order. -/
def unionKeys (l₁ l₂ : List String) : List String := dedupFirstAux (l₁ ++ l₂) []

/-- The `type` tag of a diff record. -/
inductive DiffType where
  | added : DiffType
  | removed : DiffType
  | modified : DiffType
  | equal : DiffType
deriving DecidableEq

/-- One comparison outcome (the source's `DiffResult` interface); absent
optional fields are `none`. -/
structure DiffResult where
  path : String
  type : DiffType
  oldValue : Option JsonValue := none
  newValue : Option JsonValue := none

/-- Child path construction: ``path ? `${path}.${key}` : key`` (the empty
string is falsy). -/
def joinPath (path k : String) : String := if path = "" then k else path ++ "." ++ k

/-- The structural differ `compareObjects(obj1, obj2, path)`.  Base case
(either side `null` or not an object): one `modified` or `equal` record at
`path || "root"` by strict equality.  Composite case: iterate the key union
`new Set([...Object.keys(obj1), ...Object.keys(obj2)])`; a key missing on
the left is `added`, missing on the right is `removed`; present on both
sides it recurses when both child values are non-null objects and otherwise
applies the strict-equality check at the child path.  The `none, none` match
arm is unreachable: every key of the union is present on at least one side. -/
def compareObjects (obj1 obj2 : JsonValue) (path : String) : List DiffResult :=
  if !(isComposite obj1) || !(isComposite obj2) then
    if jsEq obj1 obj2 = false then
      [⟨if path = "" then "root" else path, .modified, some obj1, some obj2⟩]
    else
      [⟨if path = "" then "root" else path, .equal, some obj1, some obj2⟩]
  else
    (unionKeys (keys obj1) (keys obj2)).flatMap fun key =>
      let newPath := joinPath path key
      match h1 : getv obj1 key, h2 : getv obj2 key with
      | none, none => []
      | none, some v2 => [⟨newPath, .added, none, some v2⟩]
      | some v1, none => [⟨newPath, .removed, some v1, none⟩]
      | some v1, some v2 =>
        if isComposite v1 && isComposite v2 then
          compareObjects v1 v2 newPath
        else if jsEq v1 v2 = false then
          [⟨newPath, .modified, some v1, some v2⟩]
        else
          [⟨newPath, .equal, some v1, some v2⟩]
  termination_by sizeOf obj1 + sizeOf obj2
  decreasing_by
    all_goals
    have hfs : ∀ (fs : List (String × JsonValue)) (k : String) (u : JsonValue),
        lookupFirst fs k = some u → sizeOf u < sizeOf fs := by
      intro fs k u
      induction fs with
      | nil => intro h; simp [lookupFirst] at h
      | cons p ps ih =>
        intro h
        cases p with
        | mk a b =>
          simp only [lookupFirst] at h
          by_cases hk : a = k
          · subst hk
            simp at h
            subst h
            simp only [List.cons.sizeOf_spec, Prod.mk.sizeOf_spec]
            omega
          · have := ih (by rwa [if_neg hk] at h)
            simp only [List.cons.sizeOf_spec]
            omega
    have hel : ∀ (l : List JsonValue) (i : Nat) (k : String) (u : JsonValue),
        lookupFirst (enumFields i l) k = some u → sizeOf u < sizeOf l := by
      intro l
      induction l with
      | nil => intro i k u h; simp [enumFields, lookupFirst] at h
      | cons v vs ih =>
        intro i k u h
        simp only [enumFields, lookupFirst] at h
        by_cases hk : natKey i = k
        · rw [if_pos hk] at h
          simp at h
          subst h
          simp only [List.cons.sizeOf_spec]
          omega
        · have := ih (i + 1) k u (by rwa [if_neg hk] at h)
          simp only [List.cons.sizeOf_spec]
          omega
    have hlt : ∀ (v : JsonValue) (k : String) (u : JsonValue),
        getv v k = some u → sizeOf u < sizeOf v := by
      intro v k u h
      cases v with
      | null => simp [getv, fields, lookupFirst] at h
      | bool b => simp [getv, fields, lookupFirst] at h
      | num n => simp [getv, fields, lookupFirst] at h
      | str s => simp [getv, fields, lookupFirst] at h
      | obj fs =>
        have := hfs fs k u h
        simp only [JsonValue.obj.sizeOf_spec]
        omega
      | arr l =>
        have := hel l 0 k u h
        simp only [JsonValue.arr.sizeOf_spec]
        omega
    exact Nat.add_lt_add (hlt _ _ _ h1) (hlt _ _ _ h2)

/-- The per-key body of the differ's composite loop, on the two looked-up
bindings: absent left key emits `added`, absent right key emits `removed`,
two composites recurse, otherwise the strict-equality base check runs at the
child path. -/
def compareEntry (o1 o2 : Option JsonValue) (newPath : String) : List DiffResult :=
  match o1, o2 with
  | none, none => []
  | none, some v2 => [⟨newPath, .added, none, some v2⟩]
  | some v1, none => [⟨newPath, .removed, some v1, none⟩]
  | some v1, some v2 =>
    if isComposite v1 && isComposite v2 then
      compareObjects v1 v2 newPath
    else if jsEq v1 v2 = false then
      [⟨newPath, .modified, some v1, some v2⟩]
    else
      [⟨newPath, .equal, some v1, some v2⟩]

/-- The common leading character count of two strings: the source's first
while loop (`while (prefix < minLen && oldStr[prefix] === newStr[prefix])
prefix++`); walking both character lists in lock-step stops at the shorter
string exactly as the `minLen` bound does. -/
def commonPreLen : List Char → List Char → Nat
  | a :: as, b :: bs => if a = b then commonPreLen as bs + 1 else 0
  | _, _ => 0

/-- Character of `l` counted `s` places from its end: `str[str.length - 1 - s]`. -/
def endChar (l : List Char) (s : Nat) : Option Char := l[l.length - 1 - s]?

/-- The source's second while loop (`while (suffix < minLen - prefix && ...)
suffix++`), with the remaining loop budget `minLen - prefix - s` passed as
structural fuel: `fuel = 0` is exactly the exit condition
`suffix = minLen - prefix`. -/
def sufLenLoop (o n : List Char) : Nat → Nat → Nat
  | 0, s => s
  | fuel + 1, s => if endChar o s = endChar n s then sufLenLoop o n fuel (s + 1) else s

/-- The four span strings produced by `getStringDiffSpans` (the payload of
the two JSX fragments it returns): the shared lead `pre`, the two differing
middles, and the shared tail `post`. -/
structure StringDiffSpans where
  pre : String
  middleOld : String
  middleNew : String
  post : String
deriving DecidableEq

/-- The string highlighter `getStringDiffSpans`, span strings only.
`str.slice(a, b)` on in-range bounds keeps characters `[a, b)`; the source
computes the middles as ``slice(preLen, str.length - sufLen || undefined)``,
so a zero end bound is replaced by `undefined` (slice to the end) — that
JavaScript falsiness quirk is the `if ... = 0` branches below.  The trailing
``|| ""`` on `post` is the identity on strings the slice produces. -/
def getStringDiffSpans (oldStr newStr : String) : StringDiffSpans :=
  let minLen := min oldStr.length newStr.length
  let preLen := commonPreLen oldStr.data newStr.data
  let sufLen := sufLenLoop oldStr.data newStr.data (minLen - preLen) 0
  let oldEnd := oldStr.length - sufLen
  let newEnd := newStr.length - sufLen
  let middleOld :=
    if oldEnd = 0 then String.mk (oldStr.data.drop preLen)
    else String.mk ((oldStr.data.drop preLen).take (oldEnd - preLen))
  let middleNew :=
    if newEnd = 0 then String.mk (newStr.data.drop preLen)
    else String.mk ((newStr.data.drop preLen).take (newEnd - preLen))
  ⟨String.mk (oldStr.data.take preLen), middleOld, middleNew,
    String.mk (oldStr.data.drop oldEnd)⟩

/-- Modelled from the spec (§4.2 steps 4–5, the middles as plain slices,
no falsy-bound replacement): `middleOld = oldStr[preLen : len(oldStr) - sufLen]`
and `middleNew = newStr[preLen : len(newStr) - sufLen]`, with the prefix and
suffix lengths computed by the loops of the source (which the spec restates
verbatim). -/
def specMiddles (oldStr newStr : String) : String × String :=
  let minLen := min oldStr.length newStr.length
  let preLen := commonPreLen oldStr.data newStr.data
  let sufLen := sufLenLoop oldStr.data newStr.data (minLen - preLen) 0
  (String.mk ((oldStr.data.drop preLen).take (oldStr.length - sufLen - preLen)),
    String.mk ((newStr.data.drop preLen).take (newStr.length - sufLen - preLen)))

/-- JavaScript whitespace tested by the validation guard. -/
def isWSChar (c : Char) : Bool := c = ' ' || c = '\t' || c = '\n' || c = '\r'

/-- Falsiness of `text.trim()`: the trimmed string is empty exactly when
every character is whitespace. -/
def trimmedEmpty (s : String) : Bool := s.data.all isWSChar

/-- `validateJson`, abstracted over the `JSON.parse` collaborator
(`parse text = none` models a thrown `SyntaxError`).  Returns the value
together with the error message set; blank text and parse failure both
return the JavaScript `null` the caller tests — indistinguishable from a
successfully parsed JSON `null` literal. -/
def validateJson (parse : String → Option JsonValue) (text : String) :
    JsonValue × String :=
  if trimmedEmpty text then (JsonValue.null, "")
  else
    match parse text with
    | some v => (v, "")
    | none => (JsonValue.null, "Invalid JSON")

/-- `handleCompare`: validate both texts, then either run the differ and
show it (`parsed1 !== null && parsed2 !== null`) or clear the diff state.
Result: the new `(diffs, isShowingDiffs)` state pair. -/
def handleCompare (parse : String → Option JsonValue) (json1 json2 : String) :
    List DiffResult × Bool :=
  let parsed1 := (validateJson parse json1).1
  let parsed2 := (validateJson parse json2).1
  if !(isNull parsed1) && !(isNull parsed2) then
    (compareObjects parsed1 parsed2 "", true)
  else
    ([], false)

/-- A concrete instantiation of the parse collaborator for witness inputs:
agrees with `JSON.parse` on the three literals `"null"`, `"1"`, `"2"` and
rejects everything else. -/
def parseLit (t : String) : Option JsonValue :=
  if t = "null" then some JsonValue.null
  else if t = "1" then some (JsonValue.num 1)
  else if t = "2" then some (JsonValue.num 2)
  else none

/-- `true` iff keys are pairwise distinct (decoded JSON objects always are). -/
def nodupKeys : List String → Bool
  | [] => true
  | k :: ks => !(ks.contains k) && nodupKeys ks

mutual

/-- Well-formedness of a decoded JSON value: object keys are duplicate-free
at every level.  Every value produced by `JSON.parse` satisfies this. -/
def wf : JsonValue → Bool
  | .arr l => wfList l
  | .obj fs => nodupKeys (fieldKeys fs) && wfFields fs
  | _ => true

def wfList : List JsonValue → Bool
  | [] => true
  | v :: vs => wf v && wfList vs

def wfFields : List (String × JsonValue) → Bool
  | [] => true
  | (_, v) :: ps => wf v && wfFields ps

end

mutual

/-- The terminal (non-object, non-array) values reachable in a value, one
occurrence per leaf position, in enumeration order; a primitive is its own
single terminal. -/
def leafValues : JsonValue → List JsonValue
  | .arr l => leafValuesList l
  | .obj fs => leafValuesFields fs
  | v => [v]

def leafValuesList : List JsonValue → List JsonValue
  | [] => []
  | v :: vs => leafValues v ++ leafValuesList vs

def leafValuesFields : List (String × JsonValue) → List JsonValue
  | [] => []
  | (_, v) :: ps => leafValues v ++ leafValuesFields ps

end

mutual

/-- One `equal` record per leaf of a value, addressed by the dot-joined
path from `path`: the shape `compareObjects v v path` takes on well-formed
composite `v`.  Leaves emit their path raw; the `"root"` substitution of
the differ's base case applies only when the compared roots themselves are
not both composite. -/
def leafRecords : JsonValue → String → List DiffResult
  | .arr l, path => leafRecordsList l 0 path
  | .obj fs, path => leafRecordsFields fs path
  | v, path => [⟨path, .equal, some v, some v⟩]

def leafRecordsList : List JsonValue → Nat → String → List DiffResult
  | [], _, _ => []
  | v :: vs, i, path =>
    leafRecords v (joinPath path (natKey i)) ++ leafRecordsList vs (i + 1) path

def leafRecordsFields : List (String × JsonValue) → String → List DiffResult
  | [], _ => []
  | (k, v) :: ps, path => leafRecords v (joinPath path k) ++ leafRecordsFields ps path

end

/-- Swapping the argument order turns additions into removals and back,
and fixes the other two tags. -/
def swapType : DiffType → DiffType
  | .added => .removed
  | .removed => .added
  | .modified => .modified
  | .equal => .equal

/-- The record the swapped comparison should produce for `r`: same path,
mirrored tag, values exchanged. -/
def swapRecord (r : DiffResult) : DiffResult :=
  ⟨r.path, swapType r.type, r.newValue, r.oldValue⟩

/-- The kind/value invariant of a single diff record: `equal` carries the
same value twice, `modified` carries two differing values, `added` has no
old value, `removed` has no new value. -/
def recordWellFormed (r : DiffResult) : Prop :=
  (r.type = .equal → ∃ v, r.oldValue = some v ∧ r.newValue = some v) ∧
  (r.type = .modified → ∃ u v, r.oldValue = some u ∧ r.newValue = some v ∧ u ≠ v) ∧
  (r.type = .added → r.oldValue = none) ∧
  (r.type = .removed → r.newValue = none)

theorem lookupFirst_mem {fs : List (String × JsonValue)} {k : String} {u : JsonValue}
    (h : lookupFirst fs k = some u) : (k, u) ∈ fs := by
  induction fs with
  | nil => simp [lookupFirst] at h
  | cons p ps ih =>
    cases p with
    | mk a b =>
      simp only [lookupFirst] at h
      by_cases hk : a = k
      · subst hk
        simp at h
        subst h
        exact List.mem_cons_self _ _
      · rw [if_neg hk] at h
        exact List.mem_cons_of_mem _ (ih h)

theorem enumFields_mem_snd {l : List JsonValue} {i : Nat} {p : String × JsonValue}
    (h : p ∈ enumFields i l) : p.2 ∈ l := by
  induction l generalizing i with
  | nil => simp [enumFields] at h
  | cons v vs ih =>
    simp only [enumFields, List.mem_cons] at h
    rcases h with h | h
    · subst h
      simp
    · exact List.mem_cons_of_mem _ (ih h)

theorem getv_sizeOf_lt {v : JsonValue} {k : String} {u : JsonValue}
    (h : getv v k = some u) : sizeOf u < sizeOf v := by
  cases v with
  | null => simp [getv, fields, lookupFirst] at h
  | bool b => simp [getv, fields, lookupFirst] at h
  | num n => simp [getv, fields, lookupFirst] at h
  | str s => simp [getv, fields, lookupFirst] at h
  | obj fs =>
    simp only [getv, fields] at h
    have hm : (k, u) ∈ fs := lookupFirst_mem h
    have h1 : sizeOf (k, u) < sizeOf fs := List.sizeOf_lt_of_mem hm
    have h2 : sizeOf u < sizeOf (k, u) := by simp only [Prod.mk.sizeOf_spec]; omega
    have h3 : sizeOf fs < sizeOf (JsonValue.obj fs) := by
      simp only [JsonValue.obj.sizeOf_spec]; omega
    omega
  | arr l =>
    simp only [getv, fields] at h
    have hm : u ∈ l := enumFields_mem_snd (lookupFirst_mem h)
    have h1 : sizeOf u < sizeOf l := List.sizeOf_lt_of_mem hm
    have h2 : sizeOf l < sizeOf (JsonValue.arr l) := by
      simp only [JsonValue.arr.sizeOf_spec]; omega
    omega

theorem compareObjects_base {obj1 obj2 : JsonValue} (path : String)
    (h : (!(isComposite obj1) || !(isComposite obj2)) = true) :
    compareObjects obj1 obj2 path =
      if jsEq obj1 obj2 = false then
        [⟨if path = "" then "root" else path, .modified, some obj1, some obj2⟩]
      else
        [⟨if path = "" then "root" else path, .equal, some obj1, some obj2⟩] := by
  rw [compareObjects.eq_def]
  rw [if_pos h]

theorem compareObjects_composite {obj1 obj2 : JsonValue} (path : String)
    (h1 : isComposite obj1 = true) (h2 : isComposite obj2 = true) :
    compareObjects obj1 obj2 path =
      (unionKeys (keys obj1) (keys obj2)).flatMap fun key =>
        compareEntry (getv obj1 key) (getv obj2 key) (joinPath path key) := by
  rw [compareObjects.eq_def]
  rw [if_neg (by simp [h1, h2])]
  refine congrArg _ (funext fun key => ?_)
  cases hg1 : getv obj1 key with
  | none =>
    cases hg2 : getv obj2 key with
    | none => simp [compareEntry]
    | some v2 => simp [compareEntry]
  | some v1 =>
    cases hg2 : getv obj2 key with
    | none => simp [compareEntry]
    | some v2 => simp [compareEntry]

theorem eq_of_jsEq {a b : JsonValue} (h : jsEq a b = true) : a = b := by
  cases a <;> cases b <;> simp_all [jsEq]

theorem jsEq_self {a : JsonValue} (h : isComposite a = false) : jsEq a a = true := by
  cases a <;> simp_all [jsEq, isComposite]

theorem ne_of_jsEq_false {a b : JsonValue} (h : jsEq a b = false)
    (hc : (isComposite a && isComposite b) = false) : a ≠ b := by
  intro he
  subst he
  cases a <;> simp_all [jsEq, isComposite]

theorem jsEq_comm (a b : JsonValue) : jsEq a b = jsEq b a := by
  cases a <;> cases b <;> simp [jsEq, eq_comm]

theorem isNull_iff (v : JsonValue) : isNull v = true ↔ v = JsonValue.null := by
  cases v <;> simp [isNull]

/-- C1: the highlighter's reconstruction invariant `pre ++ middleOld ++ post
= oldStr` FAILS on the code: at `oldStr = "ab"`, `newStr = "xab"` the suffix
loop stops at `sufLen = 2 = len(oldStr)`, so the slice end `len - sufLen` is
`0`, the `|| undefined` bound makes `middleOld` the whole remainder `"ab"`,
and the old side reconstructs to `"abab" ≠ "ab"`.  The spec's three stated
example evaluations do hold, as the remaining conjuncts show. -/
theorem stringSpans_reconstruction_bug :
    (getStringDiffSpans "ab" "xab").pre ++ (getStringDiffSpans "ab" "xab").middleOld ++
        (getStringDiffSpans "ab" "xab").post = "abab" ∧
    ("abab" : String) ≠ "ab" ∧
    (getStringDiffSpans "xab" "ab").pre ++ (getStringDiffSpans "xab" "ab").middleNew ++
        (getStringDiffSpans "xab" "ab").post = "abab" ∧
    getStringDiffSpans "hello" "hello" = ⟨"hello", "", "", ""⟩ ∧
    getStringDiffSpans "abcXdef" "abcYdef" = ⟨"abc", "X", "Y", "def"⟩ ∧
    getStringDiffSpans "" "abc" = ⟨"", "", "abc", ""⟩ := by
  decide

/-- C6: the highlighter computes the prefix and suffix lengths exactly as
specified (here `preLen = 0` and `sufLen = 2` for `"xab"` vs `"ab"`), but
the middles are NOT always the specified slices: at `oldStr = "xab"`,
`newStr = "ab"` the specified `middleNew = newStr[0 : 2 - 2]` is empty while
the code's `|| undefined` slice bound yields the whole string `"ab"`. -/
theorem stringSpans_slice_algorithm_bug :
    commonPreLen "xab".data "ab".data = 0 ∧
    sufLenLoop "xab".data "ab".data (min "xab".length "ab".length - 0) 0 = 2 ∧
    (getStringDiffSpans "xab" "ab").middleNew = "ab" ∧
    (specMiddles "xab" "ab").2 = "" ∧
    ("ab" : String) ≠ "" := by
  decide

/-- C7: type mismatch is reported as a single `modified` record without
recursion: comparing an object whose key `a` holds the number `1` against
one whose key `a` holds the object `b ↦ 1` yields exactly one record, at
path `a`, kind `modified`, with the scalar and the whole object as values. -/
theorem compare_type_mismatch_single_modified :
    compareObjects (.obj [("a", .num 1)]) (.obj [("a", .obj [("b", .num 1)])]) "" =
      [⟨"a", .modified, some (.num 1), some (.obj [("b", .num 1)])⟩] := by
  simp [compareObjects_composite, compareObjects_base, compareEntry, isComposite, jsEq,
    keys, fields, fieldKeys, unionKeys, dedupFirstAux, getv, lookupFirst, joinPath]

/-- C8: path correctness for nested objects: comparing `a ↦ (b ↦ 1)` with
`a ↦ (b ↦ 2)` produces exactly one record — in particular exactly one
non-`equal` record — and it sits at the dot-joined path `a.b` with kind
`modified`, old value `1`, new value `2`. -/
theorem compare_nested_path_correctness :
    compareObjects (.obj [("a", .obj [("b", .num 1)])]) (.obj [("a", .obj [("b", .num 2)])]) "" =
      [⟨"a.b", .modified, some (.num 1), some (.num 2)⟩] := by
  simp [compareObjects_composite, compareObjects_base, compareEntry, isComposite, jsEq,
    keys, fields, fieldKeys, unionKeys, dedupFirstAux, getv, lookupFirst, joinPath]

/-- C10: a pair of empty composites produces no record at all — at any path,
hence also wherever the recursion reaches such a pair, and for every mix of
empty object and empty array; the final conjunct shows a nested occurrence
reached through recursion. -/
theorem compare_empty_composites_empty :
    (∀ path, compareObjects (.obj []) (.obj []) path = [] ∧
      compareObjects (.arr []) (.arr []) path = [] ∧
      compareObjects (.obj []) (.arr []) path = [] ∧
      compareObjects (.arr []) (.obj []) path = []) ∧
    compareObjects (.obj [("a", .obj [])]) (.obj [("a", .arr [])]) "" = [] := by
  constructor
  · intro path
    refine ⟨?_, ?_, ?_, ?_⟩ <;>
      simp [compareObjects_composite, isComposite, keys, fields, fieldKeys, unionKeys,
        dedupFirstAux, enumFields]
  · simp [compareObjects_composite, compareEntry, isComposite, keys, fields, fieldKeys,
      unionKeys, dedupFirstAux, enumFields, getv, lookupFirst, joinPath]

/-- C3 counterexample: both input texts decode successfully — `"null"` and
`"1"` are valid JSON and the parse collaborator returns a value for each —
yet the comparison is NOT attempted: the decoded JSON `null` is
indistinguishable from a parse failure in `validateJson`'s return value, so
`handleCompare` clears the diff state instead. -/
theorem handleCompare_null_literal_counterexample :
    parseLit "null" = some JsonValue.null ∧
    parseLit "1" = some (JsonValue.num 1) ∧
    handleCompare parseLit "null" "1" = ([], false) := by
  refine ⟨rfl, rfl, ?_⟩
  simp [handleCompare, validateJson, parseLit, trimmedEmpty, isWSChar, isNull]

/-- C3 amended: the comparison runs if and only if both validated texts
yield a non-null value (decode success with any value other than the JSON
literal `null`; blank text, parse failure and a decoded `null` all count as
null); whenever either side is null the diff list is set to empty and the
result view is hidden, and otherwise the stored diffs are exactly the
differ's output on the two decoded values. -/
theorem handleCompare_comparison_iff_nonnull (parse : String → Option JsonValue)
    (t1 t2 : String) :
    ((validateJson parse t1).1 = JsonValue.null ∨ (validateJson parse t2).1 = JsonValue.null →
      handleCompare parse t1 t2 = ([], false)) ∧
    ((validateJson parse t1).1 ≠ JsonValue.null → (validateJson parse t2).1 ≠ JsonValue.null →
      handleCompare parse t1 t2 =
        (compareObjects (validateJson parse t1).1 (validateJson parse t2).1 "", true)) := by
  constructor
  · intro h
    rcases h with h | h <;> simp [handleCompare, h, isNull]
  · intro h1 h2
    have hn1 : isNull (validateJson parse t1).1 = false := by
      rcases hv : (validateJson parse t1).1 <;> simp_all [isNull]
    have hn2 : isNull (validateJson parse t2).1 = false := by
      rcases hv : (validateJson parse t2).1 <;> simp_all [isNull]
    simp [handleCompare, hn1, hn2]

/-- C3 witness: on the texts `"1"` and `"2"` both validated values are
non-null and `handleCompare` stores the differ's output and shows it. -/
theorem handleCompare_comparison_iff_nonnull_witness :
    (validateJson parseLit "1").1 ≠ JsonValue.null ∧
    (validateJson parseLit "2").1 ≠ JsonValue.null ∧
    handleCompare parseLit "1" "2" =
      (compareObjects (validateJson parseLit "1").1 (validateJson parseLit "2").1 "", true) := by
  have ha : (validateJson parseLit "1").1 ≠ JsonValue.null := by
    simp [validateJson, parseLit, trimmedEmpty, isWSChar]
  have hb : (validateJson parseLit "2").1 ≠ JsonValue.null := by
    simp [validateJson, parseLit, trimmedEmpty, isWSChar]
  exact ⟨ha, hb, (handleCompare_comparison_iff_nonnull parseLit "1" "2").2 ha hb⟩

theorem jsonValue_sizeOf_pos (v : JsonValue) : 0 < sizeOf v := by
  cases v <;> simp_arith

/-- C2: every record emitted by the differ satisfies the kind/value
invariant `recordWellFormed`: an `equal` record carries the same value on
both sides, a `modified` record carries two values that differ, an `added`
record has no old value, and a `removed` record has no new value. -/
theorem compare_record_kind_value_invariant :
    ∀ (a b : JsonValue) (path : String) (r : DiffResult),
      r ∈ compareObjects a b path → recordWellFormed r := by
  suffices H : ∀ (n : Nat) (a b : JsonValue) (path : String) (r : DiffResult),
      sizeOf a + sizeOf b ≤ n → r ∈ compareObjects a b path → recordWellFormed r by
    intro a b path r hr
    exact H (sizeOf a + sizeOf b) a b path r le_rfl hr
  intro n
  induction n with
  | zero =>
    intro a b path r hle _
    have := jsonValue_sizeOf_pos a
    have := jsonValue_sizeOf_pos b
    omega
  | succ n ih =>
    intro a b path r hle hr
    by_cases hc : (isComposite a && isComposite b) = true
    · obtain ⟨hca, hcb⟩ := Bool.and_eq_true_iff.1 hc
      rw [compareObjects_composite path hca hcb] at hr
      rw [List.mem_flatMap] at hr
      obtain ⟨key, hkey, hr⟩ := hr
      cases hg1 : getv a key with
      | none =>
        cases hg2 : getv b key with
        | none =>
          rw [hg1, hg2] at hr
          simp [compareEntry] at hr
        | some v2 =>
          rw [hg1, hg2] at hr
          simp only [compareEntry, List.mem_singleton] at hr
          subst hr
          exact ⟨by simp, by simp, fun _ => rfl, by simp⟩
      | some v1 =>
        cases hg2 : getv b key with
        | none =>
          rw [hg1, hg2] at hr
          simp only [compareEntry, List.mem_singleton] at hr
          subst hr
          exact ⟨by simp, by simp, by simp, fun _ => rfl⟩
        | some v2 =>
          rw [hg1, hg2] at hr
          simp only [compareEntry] at hr
          by_cases hcc : (isComposite v1 && isComposite v2) = true
          · rw [if_pos hcc] at hr
            have s1 := getv_sizeOf_lt hg1
            have s2 := getv_sizeOf_lt hg2
            exact ih v1 v2 (joinPath path key) r (by omega) hr
          · rw [if_neg hcc] at hr
            have hcc' : (isComposite v1 && isComposite v2) = false := by
              cases h' : (isComposite v1 && isComposite v2) <;> simp_all
            by_cases hje : jsEq v1 v2 = false
            · rw [if_pos hje] at hr
              simp only [List.mem_singleton] at hr
              subst hr
              exact ⟨by simp, fun _ => ⟨v1, v2, rfl, rfl, ne_of_jsEq_false hje hcc'⟩,
                by simp, by simp⟩
            · have hje' : jsEq v1 v2 = true := by
                cases h' : jsEq v1 v2 <;> simp_all
              rw [if_neg hje] at hr
              simp only [List.mem_singleton] at hr
              subst hr
              obtain rfl := eq_of_jsEq hje'
              exact ⟨fun _ => ⟨v1, rfl, rfl⟩, by simp, by simp, by simp⟩
    · have hb : (!(isComposite a) || !(isComposite b)) = true := by
        cases h1 : isComposite a <;> cases h2 : isComposite b <;> simp_all
      have hc' : (isComposite a && isComposite b) = false := by
        cases h' : (isComposite a && isComposite b) <;> simp_all
      rw [compareObjects_base path hb] at hr
      by_cases hje : jsEq a b = false
      · rw [if_pos hje] at hr
        simp only [List.mem_singleton] at hr
        subst hr
        exact ⟨by simp, fun _ => ⟨a, b, rfl, rfl, ne_of_jsEq_false hje hc'⟩, by simp, by simp⟩
      · have hje' : jsEq a b = true := by
          cases h' : jsEq a b <;> simp_all
        rw [if_neg hje] at hr
        simp only [List.mem_singleton] at hr
        subst hr
        obtain rfl := eq_of_jsEq hje'
        exact ⟨fun _ => ⟨a, rfl, rfl⟩, by simp, by simp, by simp⟩

/-- C2 witness: the single record of comparing the numbers `1` and `2`
satisfies the invariant, obtained by instantiating the claim theorem
at that comparison. -/
theorem compare_record_kind_value_invariant_witness :
    recordWellFormed ⟨"root", .modified, some (.num 1), some (.num 2)⟩ :=
  compare_record_kind_value_invariant (.num 1) (.num 2) "" _
    (by simp [compareObjects_base, isComposite, jsEq])

theorem mem_dedupFirstAux {x : String} :
    ∀ (l seen : List String), x ∈ dedupFirstAux l seen ↔ x ∈ l ∧ x ∉ seen := by
  intro l
  induction l with
  | nil => intro seen; simp [dedupFirstAux]
  | cons k ks ih =>
    intro seen
    simp only [dedupFirstAux]
    by_cases hk : seen.contains k
    · rw [if_pos hk]
      have hkm : k ∈ seen := by simpa using hk
      rw [ih]
      constructor
      · rintro ⟨hx, hnx⟩
        exact ⟨List.mem_cons_of_mem _ hx, hnx⟩
      · rintro ⟨hx, hnx⟩
        rcases List.mem_cons.1 hx with rfl | hx
        · exact absurd hkm hnx
        · exact ⟨hx, hnx⟩
    · rw [if_neg hk]
      have hkm : k ∉ seen := by simpa using hk
      simp only [List.mem_cons, ih]
      constructor
      · rintro (rfl | ⟨hx, hnx⟩)
        · exact ⟨Or.inl rfl, hkm⟩
        · exact ⟨Or.inr hx, fun hc => hnx (Or.inr hc)⟩
      · rintro ⟨rfl | hx, hnx⟩
        · exact Or.inl rfl
        · by_cases hxk : x = k
          · exact Or.inl hxk
          · exact Or.inr ⟨hx, fun hc => hc.elim hxk hnx⟩

theorem nodup_dedupFirstAux : ∀ (l seen : List String), (dedupFirstAux l seen).Nodup := by
  intro l
  induction l with
  | nil => intro seen; simp [dedupFirstAux]
  | cons k ks ih =>
    intro seen
    simp only [dedupFirstAux]
    by_cases hk : seen.contains k
    · rw [if_pos hk]
      exact ih seen
    · rw [if_neg hk]
      refine List.nodup_cons.2 ⟨?_, ih (k :: seen)⟩
      intro hc
      exact ((mem_dedupFirstAux ks (k :: seen)).1 hc).2 (List.mem_cons_self _ _)

theorem mem_unionKeys {x : String} (l₁ l₂ : List String) :
    x ∈ unionKeys l₁ l₂ ↔ x ∈ l₁ ∨ x ∈ l₂ := by
  rw [unionKeys, mem_dedupFirstAux]
  simp

theorem nodup_unionKeys (l₁ l₂ : List String) : (unionKeys l₁ l₂).Nodup :=
  nodup_dedupFirstAux _ _

/-- C5: symmetry of classification.  Swapping the differ's arguments
permutes the record list into the image of the original list under
`swapRecord`: every `added` record of `compare(a, b)` corresponds to a
`removed` record of `compare(b, a)` at the same path with the values
exchanged and vice versa, and `modified` / `equal` records keep their
kind with values exchanged. -/
theorem compare_swap_symmetry :
    ∀ (a b : JsonValue) (path : String),
      List.Perm (compareObjects b a path) ((compareObjects a b path).map swapRecord) := by
  suffices H : ∀ (n : Nat) (a b : JsonValue) (path : String), sizeOf a + sizeOf b ≤ n →
      List.Perm (compareObjects b a path) ((compareObjects a b path).map swapRecord) by
    intro a b path
    exact H (sizeOf a + sizeOf b) a b path le_rfl
  intro n
  induction n with
  | zero =>
    intro a b path hle
    have := jsonValue_sizeOf_pos a
    have := jsonValue_sizeOf_pos b
    omega
  | succ n ih =>
    intro a b path hle
    by_cases hc : (isComposite a && isComposite b) = true
    · obtain ⟨hca, hcb⟩ := Bool.and_eq_true_iff.1 hc
      rw [compareObjects_composite path hcb hca, compareObjects_composite path hca hcb]
      rw [List.map_flatMap]
      have hperm : List.Perm (unionKeys (keys b) (keys a)) (unionKeys (keys a) (keys b)) := by
        rw [List.perm_ext_iff_of_nodup (nodup_unionKeys _ _) (nodup_unionKeys _ _)]
        intro x
        rw [mem_unionKeys, mem_unionKeys]
        exact Or.comm
      refine List.Perm.trans (hperm.flatMap_right _) ?_
      refine List.Perm.flatMap_left _ ?_
      intro key _
      cases hg1 : getv a key with
      | none =>
        cases hg2 : getv b key with
        | none => simp [compareEntry]
        | some v2 =>
          refine List.Perm.of_eq ?_
          simp [compareEntry, swapRecord, swapType]
      | some v1 =>
        cases hg2 : getv b key with
        | none =>
          refine List.Perm.of_eq ?_
          simp [compareEntry, swapRecord, swapType]
        | some v2 =>
          simp only [compareEntry]
          by_cases hcc : (isComposite v1 && isComposite v2) = true
          · rw [if_pos (by rwa [Bool.and_comm] at hcc), if_pos hcc]
            have s1 := getv_sizeOf_lt hg1
            have s2 := getv_sizeOf_lt hg2
            exact ih v1 v2 (joinPath path key) (by omega)
          · rw [if_neg (fun h => hcc (by rwa [Bool.and_comm] at h)), if_neg hcc]
            rw [jsEq_comm v2 v1]
            by_cases hje : jsEq v1 v2 = false
            · rw [if_pos hje, if_pos hje]
              refine List.Perm.of_eq ?_
              simp [swapRecord, swapType]
            · rw [if_neg hje, if_neg hje]
              refine List.Perm.of_eq ?_
              simp [swapRecord, swapType]
    · have hb : (!(isComposite a) || !(isComposite b)) = true := by
        cases h1 : isComposite a <;> cases h2 : isComposite b <;> simp_all
      have hb' : (!(isComposite b) || !(isComposite a)) = true := by
        cases h1 : isComposite a <;> cases h2 : isComposite b <;> simp_all
      rw [compareObjects_base path hb', compareObjects_base path hb]
      rw [jsEq_comm b a]
      by_cases hje : jsEq a b = false
      · rw [if_pos hje, if_pos hje]
        refine List.Perm.of_eq ?_
        simp [swapRecord, swapType]
      · rw [if_neg hje, if_neg hje]
        refine List.Perm.of_eq ?_
        simp [swapRecord, swapType]

/-- C9: arrays are diffed index-by-index as objects with decimal string
keys — the differ treats `arr l` exactly as the object whose fields are
`l`'s elements under keys `"0", "1", …` — and, not being order-aware, it
reports the reordering `[1,2]` vs `[2,1]` as two `modified` records at the
index paths `"0"` and `"1"`, not as a move. -/
theorem compare_arrays_as_indexed_objects :
    (∀ (l₁ l₂ : List JsonValue) (path : String),
      compareObjects (.arr l₁) (.arr l₂) path =
        compareObjects (.obj (enumFields 0 l₁)) (.obj (enumFields 0 l₂)) path) ∧
    compareObjects (.arr [.num 1, .num 2]) (.arr [.num 2, .num 1]) "" =
      [⟨"0", .modified, some (.num 1), some (.num 2)⟩,
       ⟨"1", .modified, some (.num 2), some (.num 1)⟩] := by
  constructor
  · intro l₁ l₂ path
    rw [compareObjects_composite path (by rfl) (by rfl),
      compareObjects_composite path (by rfl) (by rfl)]
    rfl
  · have h0 : natKey 0 = "0" := by rw [natKey, natKeyAux]; decide
    have h1 : natKey 1 = "1" := by rw [natKey, natKeyAux]; decide
    simp [compareObjects_composite, compareObjects_base, compareEntry, isComposite, jsEq,
      keys, fields, fieldKeys, unionKeys, dedupFirstAux, enumFields, getv, lookupFirst,
      joinPath, h0, h1]

theorem natKeyAux_ne_nil (n : Nat) : natKeyAux n ≠ [] := by
  rw [natKeyAux]
  split <;> simp

theorem digitChar_inj {d e : Nat} (hd : d < 10) (he : e < 10)
    (h : digitChar d = digitChar e) : d = e := by
  interval_cases d <;> interval_cases e <;> revert h <;> decide

theorem natKeyAux_small_eq {m n : Nat} (hmlt : m < 10)
    (h : natKeyAux m = natKeyAux n) : m = n := by
  rw [natKeyAux, if_pos hmlt] at h
  by_cases hn : n < 10
  · rw [natKeyAux, if_pos hn] at h
    simp only [List.cons.injEq] at h
    exact digitChar_inj hmlt hn h.1
  · rw [natKeyAux, if_neg hn] at h
    have hp := natKeyAux_ne_nil (n / 10)
    cases he : natKeyAux (n / 10) with
    | nil => exact absurd he hp
    | cons c cs =>
      rw [he] at h
      simp at h

theorem natKeyAux_inj : ∀ m n : Nat, natKeyAux m = natKeyAux n → m = n := by
  suffices H : ∀ (N m n : Nat), m ≤ N → natKeyAux m = natKeyAux n → m = n by
    intro m n h
    exact H m m n le_rfl h
  intro N
  induction N with
  | zero =>
    intro m n hm h
    exact natKeyAux_small_eq (by omega) h
  | succ N ih =>
    intro m n hm h
    by_cases hmlt : m < 10
    · exact natKeyAux_small_eq hmlt h
    · by_cases hn : n < 10
      · exact (natKeyAux_small_eq hn h.symm).symm
      · have em : natKeyAux m = natKeyAux (m / 10) ++ [digitChar (m % 10)] := by
          rw [natKeyAux, if_neg hmlt]
        have en : natKeyAux n = natKeyAux (n / 10) ++ [digitChar (n % 10)] := by
          rw [natKeyAux, if_neg hn]
        rw [em, en] at h
        have hsplit := List.append_inj' h (by simp)
        have hdig : m % 10 = n % 10 := by
          have h2 := hsplit.2
          simp only [List.cons.injEq] at h2
          exact digitChar_inj (Nat.mod_lt _ (by omega)) (Nat.mod_lt _ (by omega)) h2.1
        have hdiv : m / 10 = n / 10 := by
          refine ih (m / 10) (n / 10) ?_ hsplit.1
          omega
        omega

theorem natKey_inj {m n : Nat} (h : natKey m = natKey n) : m = n :=
  natKeyAux_inj m n (congrArg String.data h)

theorem nodupKeys_iff : ∀ l : List String, nodupKeys l = true ↔ l.Nodup := by
  intro l
  induction l with
  | nil => simp [nodupKeys]
  | cons k ks ih =>
    simp [nodupKeys, Bool.and_eq_true, List.nodup_cons, ih]

theorem mem_fieldKeys_enumFields {l : List JsonValue} :
    ∀ {i : Nat} {k : String}, k ∈ fieldKeys (enumFields i l) → ∃ j, i ≤ j ∧ k = natKey j := by
  induction l with
  | nil => intro i k h; simp [enumFields, fieldKeys] at h
  | cons v vs ih =>
    intro i k h
    simp only [enumFields, fieldKeys, List.map_cons, List.mem_cons] at h
    rcases h with h | h
    · exact ⟨i, le_rfl, h⟩
    · obtain ⟨j, hj, he⟩ := ih h
      exact ⟨j, by omega, he⟩

theorem nodup_fieldKeys_enumFields : ∀ (l : List JsonValue) (i : Nat),
    (fieldKeys (enumFields i l)).Nodup := by
  intro l
  induction l with
  | nil => intro i; simp [enumFields, fieldKeys]
  | cons v vs ih =>
    intro i
    simp only [enumFields, fieldKeys, List.map_cons]
    refine List.nodup_cons.2 ⟨?_, ih (i + 1)⟩
    intro hc
    obtain ⟨j, hj, he⟩ := mem_fieldKeys_enumFields hc
    have := natKey_inj he
    omega

theorem wfList_mem {l : List JsonValue} (h : wfList l = true) {v : JsonValue}
    (hv : v ∈ l) : wf v = true := by
  induction l with
  | nil => simp at hv
  | cons w ws ih =>
    simp only [wfList, Bool.and_eq_true] at h
    rcases List.mem_cons.1 hv with rfl | hv
    · exact h.1
    · exact ih h.2 hv

theorem wfFields_mem {fs : List (String × JsonValue)} (h : wfFields fs = true)
    {p : String × JsonValue} (hp : p ∈ fs) : wf p.2 = true := by
  induction fs with
  | nil => simp at hp
  | cons q qs ih =>
    cases q with
    | mk a b =>
      simp only [wfFields, Bool.and_eq_true] at h
      rcases List.mem_cons.1 hp with rfl | hp
      · exact h.1
      · exact ih h.2 hp

theorem wf_fields_mem {v : JsonValue} (hwf : wf v = true) {p : String × JsonValue}
    (hp : p ∈ fields v) : wf p.2 = true := by
  cases v with
  | null => simp [fields] at hp
  | bool b => simp [fields] at hp
  | num n => simp [fields] at hp
  | str s => simp [fields] at hp
  | arr l =>
    simp only [wf] at hwf
    exact wfList_mem hwf (enumFields_mem_snd hp)
  | obj fs =>
    simp only [wf, Bool.and_eq_true] at hwf
    exact wfFields_mem hwf.2 hp

theorem fields_mem_sizeOf {v : JsonValue} {p : String × JsonValue}
    (hp : p ∈ fields v) : sizeOf p.2 < sizeOf v := by
  cases v with
  | null => simp [fields] at hp
  | bool b => simp [fields] at hp
  | num n => simp [fields] at hp
  | str s => simp [fields] at hp
  | arr l =>
    have h1 : sizeOf p.2 < sizeOf l := List.sizeOf_lt_of_mem (enumFields_mem_snd hp)
    simp only [JsonValue.arr.sizeOf_spec]
    omega
  | obj fs =>
    have h1 : sizeOf p < sizeOf fs := List.sizeOf_lt_of_mem hp
    have h2 : sizeOf p.2 < sizeOf p := by
      cases p with
      | mk a b => simp only [Prod.mk.sizeOf_spec]; omega
    simp only [JsonValue.obj.sizeOf_spec]
    omega

theorem nodup_keys_of_wf {v : JsonValue} (hc : isComposite v = true) (hwf : wf v = true) :
    (keys v).Nodup := by
  cases v with
  | null => simp [isComposite] at hc
  | bool b => simp [isComposite] at hc
  | num n => simp [isComposite] at hc
  | str s => simp [isComposite] at hc
  | arr l => exact nodup_fieldKeys_enumFields l 0
  | obj fs =>
    simp only [wf, Bool.and_eq_true] at hwf
    exact (nodupKeys_iff _).1 hwf.1

theorem dedupFirstAux_all_seen : ∀ (L seen : List String), (∀ x ∈ L, x ∈ seen) →
    dedupFirstAux L seen = [] := by
  intro L
  induction L with
  | nil => intro seen _; simp [dedupFirstAux]
  | cons k ks ih =>
    intro seen h
    have hck : seen.contains k = true := by
      simpa using h k (List.mem_cons_self _ _)
    simp only [dedupFirstAux, hck, if_pos]
    exact ih seen (fun x hx => h x (List.mem_cons_of_mem _ hx))

theorem dedupFirstAux_self_append : ∀ (K seen L : List String), K.Nodup →
    (∀ x ∈ K, x ∉ seen) → (∀ x ∈ L, x ∈ K ∨ x ∈ seen) →
    dedupFirstAux (K ++ L) seen = K := by
  intro K
  induction K with
  | nil =>
    intro seen L _ _ hL
    rw [List.nil_append]
    exact dedupFirstAux_all_seen L seen (fun x hx => (hL x hx).resolve_left (by simp))
  | cons k ks ih =>
    intro seen L hnd hdisj hL
    obtain ⟨hk, hnd'⟩ := List.nodup_cons.1 hnd
    have hck : seen.contains k = false := by
      have h1 := hdisj k (List.mem_cons_self _ _)
      cases h' : seen.contains k
      · rfl
      · exact absurd (by simpa using h') h1
    rw [List.cons_append]
    simp only [dedupFirstAux, hck]
    simp only [Bool.false_eq_true, if_false]
    refine congrArg (k :: ·) (ih (k :: seen) L hnd' ?_ ?_)
    · intro x hx hmem
      rcases List.mem_cons.1 hmem with rfl | hmem
      · exact hk hx
      · exact hdisj x (List.mem_cons_of_mem _ hx) hmem
    · intro x hx
      rcases hL x hx with h' | h'
      · rcases List.mem_cons.1 h' with rfl | h'
        · exact Or.inr (List.mem_cons_self _ _)
        · exact Or.inl h'
      · exact Or.inr (List.mem_cons_of_mem _ h')

theorem unionKeys_self {K : List String} (hnd : K.Nodup) : unionKeys K K = K :=
  dedupFirstAux_self_append K [] K hnd (by simp) (fun x hx => Or.inl hx)

theorem flatMap_fields_compareEntry : ∀ (fs : List (String × JsonValue)) (path : String),
    (fieldKeys fs).Nodup →
    ((fieldKeys fs).flatMap fun k =>
        compareEntry (lookupFirst fs k) (lookupFirst fs k) (joinPath path k)) =
      fs.flatMap fun p => compareEntry (some p.2) (some p.2) (joinPath path p.1) := by
  intro fs
  induction fs with
  | nil => intro path _; simp [fieldKeys]
  | cons q qs ih =>
    intro path hnd
    cases q with
    | mk a b =>
      have hnd2 : (a :: fieldKeys qs).Nodup := hnd
      obtain ⟨ha, hnd'⟩ := List.nodup_cons.1 hnd2
      simp only [fieldKeys, List.map_cons, List.flatMap_cons]
      rw [show lookupFirst ((a, b) :: qs) a = some b by simp [lookupFirst]]
      have htail : ((qs.map Prod.fst).flatMap fun k =>
          compareEntry (lookupFirst ((a, b) :: qs) k) (lookupFirst ((a, b) :: qs) k)
            (joinPath path k)) =
          (qs.map Prod.fst).flatMap fun k =>
            compareEntry (lookupFirst qs k) (lookupFirst qs k) (joinPath path k) := by
        apply List.flatMap_congr
        intro k hk
        have hka : ¬(a = k) := fun he => ha (show a ∈ fieldKeys qs from he ▸ hk)
        have hlk : lookupFirst ((a, b) :: qs) k = lookupFirst qs k := by
          simp [lookupFirst, hka]
        rw [hlk]
      rw [htail]
      have ih' := ih path hnd'
      simp only [fieldKeys] at ih'
      rw [ih']

theorem leafRecordsFields_eq_flatMap : ∀ (fs : List (String × JsonValue)) (path : String),
    leafRecordsFields fs path = fs.flatMap fun p => leafRecords p.2 (joinPath path p.1) := by
  intro fs
  induction fs with
  | nil => intro path; simp [leafRecordsFields]
  | cons q qs ih =>
    intro path
    cases q with
    | mk a b => simp [leafRecordsFields, ih]

theorem leafRecordsList_eq_flatMap : ∀ (l : List JsonValue) (i : Nat) (path : String),
    leafRecordsList l i path =
      (enumFields i l).flatMap fun p => leafRecords p.2 (joinPath path p.1) := by
  intro l
  induction l with
  | nil => intro i path; simp [leafRecordsList, enumFields]
  | cons v vs ih =>
    intro i path
    simp [leafRecordsList, enumFields, ih]

theorem leafValuesFields_eq_flatMap : ∀ fs : List (String × JsonValue),
    leafValuesFields fs = fs.flatMap fun p => leafValues p.2 := by
  intro fs
  induction fs with
  | nil => simp [leafValuesFields]
  | cons q qs ih =>
    cases q with
    | mk a b => simp [leafValuesFields, ih]

theorem leafValuesList_eq_flatMap : ∀ (l : List JsonValue) (i : Nat),
    leafValuesList l = (enumFields i l).flatMap fun p => leafValues p.2 := by
  intro l
  induction l with
  | nil => intro i; simp [leafValuesList, enumFields]
  | cons v vs ih =>
    intro i
    simp [leafValuesList, enumFields, ih (i + 1)]

theorem leafValues_leaf {v : JsonValue} (h : isComposite v = false) : leafValues v = [v] := by
  cases v <;> simp_all [leafValues, isComposite]

theorem leafRecords_leaf {v : JsonValue} (h : isComposite v = false) (path : String) :
    leafRecords v path = [⟨path, .equal, some v, some v⟩] := by
  cases v <;> simp_all [leafRecords, isComposite]

theorem length_flatMap_congr {α β γ : Type} {fs : List α} {f : α → List β} {g : α → List γ}
    (h : ∀ p ∈ fs, (f p).length = (g p).length) :
    (fs.flatMap f).length = (fs.flatMap g).length := by
  induction fs with
  | nil => simp
  | cons p ps ih =>
    simp only [List.flatMap_cons, List.length_append]
    rw [h p (List.mem_cons_self _ _), ih (fun q hq => h q (List.mem_cons_of_mem _ hq))]

theorem leafRecords_length : ∀ (v : JsonValue) (path : String),
    (leafRecords v path).length = (leafValues v).length := by
  suffices H : ∀ (n : Nat) (v : JsonValue) (path : String), sizeOf v ≤ n →
      (leafRecords v path).length = (leafValues v).length by
    intro v path
    exact H (sizeOf v) v path le_rfl
  intro n
  induction n with
  | zero =>
    intro v path hle
    have := jsonValue_sizeOf_pos v
    omega
  | succ n ih =>
    intro v path hle
    cases v with
    | arr l =>
      show (leafRecordsList l 0 path).length = (leafValuesList l).length
      rw [leafRecordsList_eq_flatMap l 0 path, leafValuesList_eq_flatMap l 0]
      apply length_flatMap_congr
      intro p hp
      have hs : sizeOf p.2 < sizeOf (JsonValue.arr l) :=
        fields_mem_sizeOf (show p ∈ fields (JsonValue.arr l) from hp)
      exact ih p.2 _ (by omega)
    | obj fs =>
      show (leafRecordsFields fs path).length = (leafValuesFields fs).length
      rw [leafRecordsFields_eq_flatMap, leafValuesFields_eq_flatMap]
      apply length_flatMap_congr
      intro p hp
      have hs : sizeOf p.2 < sizeOf (JsonValue.obj fs) :=
        fields_mem_sizeOf (show p ∈ fields (JsonValue.obj fs) from hp)
      exact ih p.2 _ (by omega)
    | null => rfl
    | bool b => rfl
    | num m => rfl
    | str s => rfl

theorem leafRecords_all_equal : ∀ (v : JsonValue) (path : String) (r : DiffResult),
    r ∈ leafRecords v path → r.type = DiffType.equal := by
  suffices H : ∀ (n : Nat) (v : JsonValue) (path : String) (r : DiffResult), sizeOf v ≤ n →
      r ∈ leafRecords v path → r.type = DiffType.equal by
    intro v path r hr
    exact H (sizeOf v) v path r le_rfl hr
  intro n
  induction n with
  | zero =>
    intro v path r hle _
    have := jsonValue_sizeOf_pos v
    omega
  | succ n ih =>
    intro v path r hle hr
    cases v with
    | arr l =>
      rw [show leafRecords (JsonValue.arr l) path = leafRecordsList l 0 path from rfl,
        leafRecordsList_eq_flatMap l 0 path] at hr
      rw [List.mem_flatMap] at hr
      obtain ⟨p, hp, hr⟩ := hr
      have hs : sizeOf p.2 < sizeOf (JsonValue.arr l) :=
        fields_mem_sizeOf (show p ∈ fields (JsonValue.arr l) from hp)
      exact ih p.2 _ r (by omega) hr
    | obj fs =>
      rw [show leafRecords (JsonValue.obj fs) path = leafRecordsFields fs path from rfl,
        leafRecordsFields_eq_flatMap fs path] at hr
      rw [List.mem_flatMap] at hr
      obtain ⟨p, hp, hr⟩ := hr
      have hs : sizeOf p.2 < sizeOf (JsonValue.obj fs) :=
        fields_mem_sizeOf (show p ∈ fields (JsonValue.obj fs) from hp)
      exact ih p.2 _ r (by omega) hr
    | null => simp [leafRecords] at hr; subst hr; rfl
    | bool b => simp [leafRecords] at hr; subst hr; rfl
    | num m => simp [leafRecords] at hr; subst hr; rfl
    | str s => simp [leafRecords] at hr; subst hr; rfl

theorem compare_self_eq_leafRecords : ∀ (v : JsonValue) (path : String),
    wf v = true → isComposite v = true → compareObjects v v path = leafRecords v path := by
  suffices H : ∀ (n : Nat) (v : JsonValue) (path : String), sizeOf v ≤ n → wf v = true →
      isComposite v = true → compareObjects v v path = leafRecords v path by
    intro v path hwf hc
    exact H (sizeOf v) v path le_rfl hwf hc
  intro n
  induction n with
  | zero =>
    intro v path hle _ _
    have := jsonValue_sizeOf_pos v
    omega
  | succ n ih =>
    intro v path hle hwf hcomp
    have hnd : (keys v).Nodup := nodup_keys_of_wf hcomp hwf
    rw [compareObjects_composite path hcomp hcomp]
    rw [show unionKeys (keys v) (keys v) = keys v from unionKeys_self hnd]
    rw [show ((keys v).flatMap fun key =>
        compareEntry (getv v key) (getv v key) (joinPath path key)) =
        (fields v).flatMap fun p => compareEntry (some p.2) (some p.2) (joinPath path p.1) from
      flatMap_fields_compareEntry (fields v) path hnd]
    have hpoint : ∀ p ∈ fields v,
        compareEntry (some p.2) (some p.2) (joinPath path p.1) =
          leafRecords p.2 (joinPath path p.1) := by
      intro p hp
      by_cases hcp : isComposite p.2 = true
      · have hcc : (isComposite p.2 && isComposite p.2) = true := by simp [hcp]
        simp only [compareEntry, if_pos hcc]
        have hs := fields_mem_sizeOf hp
        exact ih p.2 _ (by omega) (wf_fields_mem hwf hp) hcp
      · have hcf : isComposite p.2 = false := by
          cases h' : isComposite p.2
          · rfl
          · exact absurd h' hcp
        have hcc : ¬((isComposite p.2 && isComposite p.2) = true) := by simp [hcf]
        have hje : ¬(jsEq p.2 p.2 = false) := by
          rw [jsEq_self hcf]
          simp
        simp only [compareEntry, if_neg hcc, if_neg hje]
        rw [leafRecords_leaf hcf]
    rw [List.flatMap_congr hpoint]
    cases v with
    | arr l => exact (leafRecordsList_eq_flatMap l 0 path).symm
    | obj fs => exact (leafRecordsFields_eq_flatMap fs path).symm
    | null => simp [isComposite] at hcomp
    | bool b => simp [isComposite] at hcomp
    | num m => simp [isComposite] at hcomp
    | str s => simp [isComposite] at hcomp

/-- C4 counterexample: at the well-formed value `v = obj (a ↦ 1, b ↦ 1)`,
`compare(v, v)` emits two records (one per leaf), but only ONE distinct
terminal value (`1`) is reachable in `v`: the claimed equality between the
record count and the number of DISTINCT terminal values fails. -/
theorem compare_self_distinct_count_counterexample :
    wf (JsonValue.obj [("a", .num 1), ("b", .num 1)]) = true ∧
    (compareObjects (JsonValue.obj [("a", .num 1), ("b", .num 1)])
        (JsonValue.obj [("a", .num 1), ("b", .num 1)]) "").length = 2 ∧
    leafValues (JsonValue.obj [("a", .num 1), ("b", .num 1)]) =
      [JsonValue.num 1, JsonValue.num 1] ∧
    Set.ncard {x : JsonValue |
      x ∈ leafValues (JsonValue.obj [("a", .num 1), ("b", .num 1)])} = 1 ∧
    (2 : Nat) ≠ 1 := by
  refine ⟨by decide, ?_, rfl, ?_, by decide⟩
  · rw [show (compareObjects (JsonValue.obj [("a", .num 1), ("b", .num 1)])
        (JsonValue.obj [("a", .num 1), ("b", .num 1)]) "") =
        [⟨"a", .equal, some (.num 1), some (.num 1)⟩,
         ⟨"b", .equal, some (.num 1), some (.num 1)⟩] from by
      simp [compareObjects_composite, compareEntry, isComposite, jsEq, keys, fields,
        fieldKeys, unionKeys, dedupFirstAux, getv, lookupFirst, joinPath]]
    rfl
  · rw [show {x : JsonValue |
        x ∈ leafValues (JsonValue.obj [("a", .num 1), ("b", .num 1)])} =
        {JsonValue.num 1} from by
      ext x
      simp [show leafValues (JsonValue.obj [("a", .num 1), ("b", .num 1)]) =
        [JsonValue.num 1, JsonValue.num 1] from rfl]]
    exact Set.ncard_singleton _

/-- C4 amended: reflexivity for well-formed values (object keys
duplicate-free at every level, as every decoded JSON value is):
`compare(v, v)` yields only `equal` records, one per LEAF OCCURRENCE — the
record count equals the number of terminal (non-object) value occurrences
reachable in `v`, not the number of distinct such values — and when `v`
itself is a leaf the single record sits at path `"root"`. -/
theorem compare_self_reflexivity (v : JsonValue) (h : wf v = true) :
    (∀ r ∈ compareObjects v v "", r.type = DiffType.equal) ∧
    (compareObjects v v "").length = (leafValues v).length ∧
    (isComposite v = false →
      compareObjects v v "" = [⟨"root", .equal, some v, some v⟩]) := by
  by_cases hc : isComposite v = true
  · rw [compare_self_eq_leafRecords v "" h hc]
    refine ⟨fun r hr => leafRecords_all_equal v "" r hr, leafRecords_length v "", ?_⟩
    intro hf
    rw [hc] at hf
    exact absurd hf (by simp)
  · have hcf : isComposite v = false := by
      cases h' : isComposite v
      · rfl
      · exact absurd h' hc
    have hbase : compareObjects v v "" = [⟨"root", .equal, some v, some v⟩] := by
      rw [compareObjects_base "" (by simp [hcf])]
      rw [jsEq_self hcf]
      simp
    rw [hbase]
    refine ⟨?_, ?_, fun _ => rfl⟩
    · intro r hr
      simp at hr
      subst hr
      rfl
    · rw [leafValues_leaf hcf]
      rfl

/-- C4 witness: instantiating the reflexivity theorem at the well-formed
two-leaf object `a ↦ 1, b ↦ 2`: its self-comparison has as many records as
leaf occurrences. -/
theorem compare_self_reflexivity_witness :
    wf (JsonValue.obj [("a", .num 1), ("b", .num 2)]) = true ∧
    (compareObjects (JsonValue.obj [("a", .num 1), ("b", .num 2)])
        (JsonValue.obj [("a", .num 1), ("b", .num 2)]) "").length =
      (leafValues (JsonValue.obj [("a", .num 1), ("b", .num 2)])).length :=
  ⟨by decide, (compare_self_reflexivity _ (by decide)).2.1⟩
